import Mathlib

/-!
# Verification of the `ynab_rules` rules engine

Shallow embedding of `src/ynab_rules/src/{condition,action,rule,rules_engine}.py`.

Modelling decisions, recorded once here:

* A transaction is a Python `dict` with string keys: we embed it as an ordered
  association list `Txn := List (String × Value)`.  Python dict insertion
  semantics (update-in-place, new keys appended at the end) are mirrored by
  `setVal`.  Python `dict ==` compares the key-value mapping, not the order:
  `dictEq` below is exactly that comparison.
* Transaction field values (`Any` in the source) are modelled by `Value`:
  JSON-style `None`, strings, and integers, which covers every value the
  modelled code reads or writes (`str`, `float(...)` coercions, and string
  writes).
* Python `float(x)` is modelled by `pyFloat?`, returning `none` exactly when
  Python raises `ValueError`/`TypeError` (both caught at the call sites in
  `Condition.evaluate`).  The decimal-string grammar is a faithful subset
  (optional sign, digits, optional fractional part, surrounding whitespace);
  exponents/`inf`/`nan`/underscores are not modelled — no claim depends on them.
* Python's `re` module is a parameter of the whole development:
  `compile : String → Option (String → Bool)` returns `none` exactly when
  `re.compile(pattern, re.IGNORECASE)` raises `re.error`, and otherwise the
  (case-insensitive) `pattern.search` test.  `re.compile` applied to a
  non-string first argument raises `TypeError`, which the source does *not*
  catch (`except re.error` only); this is the single uncaught-exception path
  in the modelled code, represented by `Except PyErr`.
* `RuleStorage` is modelled by the list of rules its `get_all_rules()` returns
  (file order); disk/JSON mechanics are outside the modelled core.
-/

namespace YnabRules

/-- A transaction field value (`Any` in the Python source, restricted to the
scalar shapes the modelled code manipulates). -/
inductive Value where
  | vnone : Value
  | vstr (s : String) : Value
  | vint (n : Int) : Value
deriving DecidableEq, Repr

/-- A transaction record: a Python dict as an ordered association list. -/
abbrev Txn := List (String × Value)

/-- `d[k]` lookup: first binding wins (Python dicts never hold duplicates). -/
def getVal? : Txn → String → Option Value
  | [], _ => none
  | (k, v) :: t, key => if k = key then some v else getVal? t key

/-- Python `transaction.get(field)`: `None` when the key is absent. -/
def getPy (t : Txn) (k : String) : Value := (getVal? t k).getD .vnone

/-- Python `transaction.get(field, default)`. -/
def getValD (t : Txn) (k : String) (d : Value) : Value := (getVal? t k).getD d

/-- `k in d` for a Python dict. -/
def hasKey (t : Txn) (k : String) : Bool := (getVal? t k).isSome

/-- The keys of the record, in insertion order (`for key in d`). -/
def keysOf (t : Txn) : List String := t.map Prod.fst

/-- Python `d[k] = v`: update the binding in place when the key exists
(a Python dict holds at most one binding per key), else append at the end. -/
def setVal : Txn → String → Value → Txn
  | [], k, v => [(k, v)]
  | (k1, v1) :: t, k, v =>
    if k1 = k then (k, v) :: t else (k1, v1) :: setVal t k v

/-- Python `dict ==`: equality of the key→value mappings (order-independent). -/
def dictEq (t1 t2 : Txn) : Bool :=
  (keysOf t1 ++ keysOf t2).all (fun k => getVal? t1 k == getVal? t2 k)

/-- Python `str()` on a field value (`str(None) = "None"`). -/
def Value.pyStr : Value → String
  | .vnone => "None"
  | .vstr s => s
  | .vint n => toString n

/-- Value of a nonempty digit string. -/
def digitsToNat (cs : List Char) : Nat :=
  cs.foldl (fun n c => n * 10 + (c.toNat - 48)) 0

/-- Unsigned part of the Python `float()` string grammar:
`digits`, `digits.digits`, `digits.`, `.digits` (at least one digit). -/
def parseUnsigned (cs : List Char) : Option Rat :=
  let ip := cs.takeWhile (fun c => c ≠ '.')
  let rest := cs.dropWhile (fun c => c ≠ '.')
  match rest with
  | [] =>
    if !ip.isEmpty && ip.all Char.isDigit then some (digitsToNat ip : Rat) else none
  | _ :: fp =>
    if fp.elem '.' then none
    else if (!ip.isEmpty || !fp.isEmpty) && ip.all Char.isDigit && fp.all Char.isDigit then
      some ((digitsToNat ip : Rat) + (digitsToNat fp : Rat) / ((10 : Rat) ^ fp.length))
    else none

/-- Whitespace accepted (and stripped) around Python `float()` input. -/
def isPySpace (c : Char) : Bool :=
  c = ' ' || c = '\t' || c = '\n' || c = '\r' || c = '\x0b' || c = '\x0c'

/-- Strip leading and trailing whitespace from a character list. -/
def trimChars (cs : List Char) : List Char :=
  ((cs.dropWhile isPySpace).reverse.dropWhile isPySpace).reverse

/-- Python `float(string)` (modelled subset; see header). -/
def parseDecimal (s : String) : Option Rat :=
  match trimChars s.toList with
  | '+' :: rest => parseUnsigned rest
  | '-' :: rest => (parseUnsigned rest).map (fun q => -q)
  | cs => parseUnsigned cs

/-- Python `float(value)` on a field value: `none` models a raised
`ValueError`/`TypeError` (caught at every call site in the source). -/
def Value.pyFloat? : Value → Option Rat
  | .vnone => none
  | .vstr s => parseDecimal s
  | .vint n => some (n : Rat)

/-- Python `needle in hay` on strings (substring test), on character lists. -/
def containsSub (hay needle : List Char) : Bool :=
  match hay with
  | [] => needle.isEmpty
  | c :: t => needle.isPrefixOf (c :: t) || containsSub t needle

/-- Python `str.lower()` (ASCII-faithful; the modelled data is ASCII). -/
def strLower (s : String) : String := String.mk (s.toList.map Char.toLower)

/-- The single uncaught exception the modelled code can raise:
`TypeError` from `re.compile` on a non-string pattern (`condition.py`,
regex branch, which catches `re.error` only). -/
inductive PyErr where
  | typeError : PyErr
deriving DecidableEq, Repr

/-- Abstract interface to Python's `re`: `compile pat` is `none` exactly when
`re.compile(pat, re.IGNORECASE)` raises `re.error`, otherwise the
case-insensitive `search` predicate of the compiled pattern. -/
abbrev RegexEngine := String → Option (String → Bool)

/-! ## `condition.py` -/

/-- `ConditionField` enum (`condition.py`). -/
inductive ConditionField where
  | payeeName | accountName | outflow | inflow | memo | categoryName
deriving DecidableEq, Repr

/-- The string value of each `ConditionField` member. -/
def ConditionField.str : ConditionField → String
  | .payeeName => "payee_name"
  | .accountName => "account_name"
  | .outflow => "outflow"
  | .inflow => "inflow"
  | .memo => "memo"
  | .categoryName => "category_name"

/-- `ConditionOperator` enum (`condition.py`). -/
inductive ConditionOperator where
  | equals | contains | startsWith | endsWith | greaterThan | lessThan | regex
deriving DecidableEq, Repr

/-- `Condition` dataclass (`condition.py`); `value` is `Any` in the source. -/
structure Condition where
  field : ConditionField
  operator : ConditionOperator
  value : Value
deriving DecidableEq, Repr

/-- `Condition.evaluate` (`condition.py`, lines 44-98).  `Except` carries the
one uncaught exception path (regex branch, non-string pattern). -/
def Condition.evaluate (compile : RegexEngine) (c : Condition) (t : Txn) :
    Except PyErr Bool :=
  -- transaction_value = transaction.get(self.field)
  let tv := getPy t c.field.str
  -- if transaction_value is None: return False
  if tv = .vnone then .ok false
  else match c.operator with
    | .equals => .ok (strLower tv.pyStr == strLower c.value.pyStr)
    | .contains => .ok (containsSub (strLower tv.pyStr).toList (strLower c.value.pyStr).toList)
    | .startsWith => .ok ((strLower tv.pyStr).startsWith (strLower c.value.pyStr))
    | .endsWith => .ok ((strLower tv.pyStr).endsWith (strLower c.value.pyStr))
    | .greaterThan =>
      -- try: return float(tv) > float(self.value) except (ValueError, TypeError): return False
      .ok (match tv.pyFloat?, c.value.pyFloat? with
        | some a, some b => decide (a > b)
        | _, _ => false)
    | .lessThan =>
      .ok (match tv.pyFloat?, c.value.pyFloat? with
        | some a, some b => decide (a < b)
        | _, _ => false)
    | .regex =>
      -- try: pattern = re.compile(self.value, re.IGNORECASE); return bool(pattern.search(str(tv)))
      -- except re.error: return False        -- TypeError is NOT caught
      match c.value with
      | .vstr pat =>
        match compile pat with
        | some matcher => .ok (matcher tv.pyStr)
        | none => .ok false
      | _ => .error .typeError

/-! ## `action.py` -/

/-- `ActionField` enum (`action.py`). -/
inductive ActionField where
  | payeeName | categoryName | memo
deriving DecidableEq, Repr

/-- The string value of each `ActionField` member. -/
def ActionField.str : ActionField → String
  | .payeeName => "payee_name"
  | .categoryName => "category_name"
  | .memo => "memo"

/-- `ActionOperation` enum (`action.py`). -/
inductive ActionOperation where
  | set | append | prepend | clear
deriving DecidableEq, Repr

/-- `Action` dataclass (`action.py`); `value` is a string, `""` for clear. -/
structure Action where
  field : ActionField
  operation : ActionOperation
  value : String := ""
deriving DecidableEq, Repr

/-- `Action.apply` (`action.py`, lines 38-75). -/
def Action.apply (a : Action) (t : Txn) : Txn :=
  -- current_value = str(modified_transaction.get(self.field, ""))
  let current := (getValD t a.field.str (.vstr "")).pyStr
  match a.operation with
  | .set => setVal t a.field.str (.vstr a.value)
  | .append =>
    if current ≠ "" then setVal t a.field.str (.vstr (current ++ " " ++ a.value))
    else setVal t a.field.str (.vstr a.value)
  | .prepend =>
    if current ≠ "" then setVal t a.field.str (.vstr (a.value ++ " " ++ current))
    else setVal t a.field.str (.vstr a.value)
  | .clear => setVal t a.field.str (.vstr "")

/-! ## `rule.py` -/

/-- `RuleLogicOperator` enum (`rule.py`). -/
inductive RuleLogicOperator where
  | and | or
deriving DecidableEq, Repr

/-- `Rule` dataclass (`rule.py`). -/
structure Rule where
  name : String
  description : String
  conditions : List Condition
  actions : List Action
  enabled : Bool := true
  priority : Int := 0
  id : String
  logic_operator : RuleLogicOperator := .and
deriving DecidableEq, Repr

/-- Python `all(condition.evaluate(t) for condition in conditions)`:
short-circuits on the first false; an exception propagates. -/
def pyAll (compile : RegexEngine) : List Condition → Txn → Except PyErr Bool
  | [], _ => .ok true
  | c :: cs, t =>
    match c.evaluate compile t with
    | .error e => .error e
    | .ok true => pyAll compile cs t
    | .ok false => .ok false

/-- Python `any(...)`: short-circuits on the first true. -/
def pyAny (compile : RegexEngine) : List Condition → Txn → Except PyErr Bool
  | [], _ => .ok false
  | c :: cs, t =>
    match c.evaluate compile t with
    | .error e => .error e
    | .ok true => .ok true
    | .ok false => pyAny compile cs t

/-- `Rule.evaluate` (`rule.py`, lines 37-56). -/
def Rule.evaluate (compile : RegexEngine) (r : Rule) (t : Txn) : Except PyErr Bool :=
  -- if not self.conditions: return False
  if r.conditions.isEmpty then .ok false
  else match r.logic_operator with
    | .and => pyAll compile r.conditions t
    | .or => pyAny compile r.conditions t

/-- The action loop of `Rule.apply`: thread the record through each action. -/
def applyActions (acts : List Action) (t : Txn) : Txn :=
  acts.foldl (fun acc a => a.apply acc) t

/-- `Rule.apply` (`rule.py`, lines 58-78). -/
def Rule.apply (compile : RegexEngine) (r : Rule) (t : Txn) : Except PyErr Txn :=
  match r.evaluate compile t with
  | .error e => .error e
  | .ok false => .ok t          -- if not self.evaluate(transaction): return transaction
  | .ok true => .ok (applyActions r.actions t)

/-! ## `rules_engine.py` -/

/-- The rule store, modelled by what `get_all_rules()` returns (file order). -/
structure RuleStorage where
  rules : List Rule
deriving DecidableEq, Repr

/-- Stable insertion of a rule into a priority-descending list: the new rule
goes before the first rule of lower-or-equal priority.  `sortRules` below is
extensionally Python's stable `sorted(rules, key=priority, reverse=True)`;
the characterizing theorems (sortedness, permutation, per-priority filter
stability) pin this down. -/
def insertRule (r : Rule) : List Rule → List Rule
  | [] => [r]
  | x :: t => if x.priority > r.priority then x :: insertRule r t else r :: x :: t

/-- Stable sort by priority, highest first (`sorted(..., reverse=True)`). -/
def sortRules : List Rule → List Rule
  | [] => []
  | x :: t => insertRule x (sortRules t)

namespace RulesEngine

/-- `RulesEngine.load_rules` (`rules_engine.py`, lines 32-41). -/
def load_rules (s : RuleStorage) : List Rule := sortRules s.rules

/-- The rule loop of `process_transaction` (`rules_engine.py`, lines 57-72):
state is the current record and the applied-rule-name list. -/
def processLoop (compile : RegexEngine) :
    List Rule → Txn → List String → Except PyErr (Txn × List String)
  | [], t, applied => .ok (t, applied)
  | r :: rs, t, applied =>
    if !r.enabled then processLoop compile rs t applied   -- if not rule.enabled: continue
    else
      match r.evaluate compile t with
      | .error e => .error e
      | .ok false => processLoop compile rs t applied
      | .ok true =>
        match r.apply compile t with
        | .error e => .error e
        | .ok t' =>
          -- if modified_transaction != before_transaction: applied_rules.append(rule.name)
          processLoop compile rs t' (if dictEq t' t then applied else applied ++ [r.name])

/-- `RulesEngine.process_transaction` (`rules_engine.py`, lines 43-73). -/
def process_transaction (compile : RegexEngine) (s : RuleStorage) (t : Txn) :
    Except PyErr (Txn × List String) :=
  processLoop compile (load_rules s) t []

end RulesEngine

/-- One entry of a `modifications[].changes` list (`rules_engine.py`).
`Value.vnone` plays Python's `None` (null in the report). -/
structure Change where
  field : String
  old_value : Value
  new_value : Value
deriving DecidableEq, Repr

/-- One entry of the report's `modifications` list. -/
structure Modification where
  transaction_id : Value
  payee_name : Value
  applied_rules : List String
  changes : List Change
deriving DecidableEq, Repr

/-- The change report of `process_transactions`.  `rules_applied` is a Python
dict name→count in first-increment order. -/
structure Report where
  total_transactions : Nat
  modified_transactions : Nat
  rules_applied : List (String × Nat)
  modifications : List Modification
  dry_run : Bool
deriving DecidableEq, Repr

/-- `RulesEngine._get_transaction_changes` (`rules_engine.py`, lines 124-167). -/
def getTransactionChanges (original modified : Txn) : List Change :=
  -- for key in modified: ...
  ((keysOf modified).filterMap (fun k =>
    match getVal? original k, getVal? modified k with
    | some ov, some mv => if ov = mv then none else some ⟨k, ov, mv⟩
    | none, some mv => some ⟨k, .vnone, mv⟩
    | _, none => none))
  -- for key in original: if key not in modified: ...
  ++ ((keysOf original).filterMap (fun k =>
    match getVal? modified k with
    | some _ => none
    | none => some ⟨k, getPy original k, .vnone⟩))

/-- `results["rules_applied"][rule_name] += 1` on a `defaultdict(int)`:
update the (unique) binding in place, or append with count 1
(Python dict insertion order). -/
def bumpCount : List (String × Nat) → String → List (String × Nat)
  | [], name => [(name, 1)]
  | (k, c) :: t, name =>
    if k = name then (k, c + 1) :: t else (k, c) :: bumpCount t name

namespace RulesEngine

/-- The body of the transaction loop of `process_transactions`
(`rules_engine.py`, lines 102-118): how one processed transaction updates
the `results` accumulator. -/
def batchStep (tx modified : Txn) (applied : List String) (res : Report) : Report :=
  if applied.isEmpty then res
  else
    let res1 : Report :=
      { res with
        modified_transactions := res.modified_transactions + 1,
        rules_applied := applied.foldl bumpCount res.rules_applied }
    let changes := getTransactionChanges tx modified
    if changes.isEmpty then res1
    else
      { res1 with
        modifications := res1.modifications ++
          [⟨getValD tx "id" (.vstr "unknown"),
            getValD tx "payee_name" (.vstr "unknown"), applied, changes⟩] }

/-- The transaction loop of `process_transactions` (`rules_engine.py`,
lines 98-119), threading the mutable `results` accumulator. -/
def processBatch (compile : RegexEngine) (s : RuleStorage) :
    List Txn → Report → Except PyErr Report
  | [], res => .ok res
  | tx :: rest, res =>
    match process_transaction compile s tx with
    | .error e => .error e
    | .ok (modified, applied) =>
      processBatch compile s rest (batchStep tx modified applied res)

/-- `RulesEngine.process_transactions` (`rules_engine.py`, lines 75-122). -/
def process_transactions (compile : RegexEngine) (s : RuleStorage)
    (txns : List Txn) (dry_run : Bool) : Except PyErr Report :=
  processBatch compile s txns
    { total_transactions := txns.length,
      modified_transactions := 0,
      rules_applied := [],
      modifications := [],
      dry_run := dry_run }

end RulesEngine

/-! ## Lookup and update lemmas -/

theorem getVal?_eq_none (t : Txn) (k : String) :
    getVal? t k = none ↔ k ∉ keysOf t := by
  induction t with
  | nil => simp [getVal?, keysOf]
  | cons p rest ih =>
    obtain ⟨k1, v1⟩ := p
    by_cases h : k1 = k
    · subst h
      simp [getVal?, keysOf]
    · simp [getVal?, keysOf, h, ih, Ne.symm h]

theorem getVal?_isSome (t : Txn) (k : String) :
    (getVal? t k).isSome = true ↔ k ∈ keysOf t := by
  simp [Option.isSome_iff_ne_none, Ne, getVal?_eq_none]

theorem dictEq_iff (t1 t2 : Txn) :
    dictEq t1 t2 = true ↔ ∀ k, getVal? t1 k = getVal? t2 k := by
  unfold dictEq
  rw [List.all_eq_true]
  constructor
  · intro h k
    by_cases h1 : k ∈ keysOf t1
    · exact beq_iff_eq.mp (h k (List.mem_append.mpr (Or.inl h1)))
    · by_cases h2 : k ∈ keysOf t2
      · exact beq_iff_eq.mp (h k (List.mem_append.mpr (Or.inr h2)))
      · rw [(getVal?_eq_none t1 k).mpr h1, (getVal?_eq_none t2 k).mpr h2]
  · intro h k _
    exact beq_iff_eq.mpr (h k)

theorem dictEq_refl (t : Txn) : dictEq t t = true :=
  (dictEq_iff t t).mpr (fun _ => rfl)

theorem dictEq_trans {t1 t2 t3 : Txn} (h12 : dictEq t1 t2 = true)
    (h23 : dictEq t2 t3 = true) : dictEq t1 t3 = true :=
  (dictEq_iff t1 t3).mpr
    (fun k => ((dictEq_iff t1 t2).mp h12 k).trans ((dictEq_iff t2 t3).mp h23 k))

theorem getVal?_append (t1 t2 : Txn) (k : String) :
    getVal? (t1 ++ t2) k =
      match getVal? t1 k with
      | some v => some v
      | none => getVal? t2 k := by
  induction t1 with
  | nil => simp [getVal?]
  | cons p rest ih =>
    obtain ⟨k1, v1⟩ := p
    by_cases h : k1 = k <;> simp [getVal?, h, ih]

theorem getVal?_setVal (t : Txn) (k : String) (v : Value) (k' : String) :
    getVal? (setVal t k v) k' = if k' = k then some v else getVal? t k' := by
  induction t with
  | nil =>
    show (if k = k' then some v else none) = _
    by_cases h : k' = k
    · rw [if_pos h.symm, if_pos h]
    · rw [if_neg (fun h' => h h'.symm), if_neg h]
      rfl
  | cons p rest ih =>
    obtain ⟨k1, v1⟩ := p
    show getVal? (if k1 = k then (k, v) :: rest else (k1, v1) :: setVal rest k v) k' = _
    by_cases h1 : k1 = k
    · rw [if_pos h1]
      show (if k = k' then some v else getVal? rest k') = _
      by_cases h2 : k' = k
      · rw [if_pos h2.symm, if_pos h2]
      · rw [if_neg (fun h' => h2 h'.symm), if_neg h2]
        show _ = (if k1 = k' then some v1 else getVal? rest k')
        rw [if_neg (fun h' => h2 (h'.symm.trans h1))]
    · rw [if_neg h1]
      show (if k1 = k' then some v1 else getVal? (setVal rest k v) k') = _
      by_cases h2 : k1 = k'
      · rw [if_pos h2, if_neg (fun h' => h1 (h2.trans h'))]
        show _ = (if k1 = k' then some v1 else getVal? rest k')
        rw [if_pos h2]
      · rw [if_neg h2, ih]
        by_cases h3 : k' = k
        · rw [if_pos h3, if_pos h3]
        · rw [if_neg h3, if_neg h3]
          show _ = (if k1 = k' then some v1 else getVal? rest k')
          rw [if_neg h2]

theorem keysOf_setVal (t : Txn) (k : String) (v : Value) :
    keysOf (setVal t k v) = if hasKey t k then keysOf t else keysOf t ++ [k] := by
  induction t with
  | nil =>
    show [k] = if hasKey [] k then keysOf [] else keysOf [] ++ [k]
    rfl
  | cons p rest ih =>
    obtain ⟨k1, v1⟩ := p
    show keysOf (if k1 = k then (k, v) :: rest else (k1, v1) :: setVal rest k v) = _
    have hcons : hasKey ((k1, v1) :: rest) k = if k1 = k then true else hasKey rest k := by
      show (if k1 = k then some v1 else getVal? rest k).isSome = _
      by_cases h : k1 = k
      · rw [if_pos h, if_pos h]
        rfl
      · rw [if_neg h, if_neg h]
        rfl
    by_cases h1 : k1 = k
    · rw [if_pos h1, hcons, if_pos h1, if_pos rfl]
      show k :: keysOf rest = k1 :: keysOf rest
      rw [h1]
    · rw [if_neg h1, hcons, if_neg h1]
      show k1 :: keysOf (setVal rest k v) = _
      rw [ih]
      by_cases h2 : hasKey rest k
      · rw [if_pos h2, if_pos h2]
        rfl
      · rw [if_neg h2, if_neg h2]
        rfl

theorem hasKey_setVal (t : Txn) (k : String) (v : Value) (k' : String) :
    hasKey (setVal t k v) k' = (hasKey t k' || decide (k' = k)) := by
  unfold hasKey
  rw [getVal?_setVal]
  by_cases h : k' = k <;> simp [h]

/-! ## Action lemmas -/

/-- The string an action writes into its target field, as a function of the
record (constant for `set`/`clear`, current-value-dependent for
`append`/`prepend`). -/
def Action.newValue (a : Action) (t : Txn) : String :=
  let current := (getValD t a.field.str (.vstr "")).pyStr
  match a.operation with
  | .set => a.value
  | .append => if current ≠ "" then current ++ " " ++ a.value else a.value
  | .prepend => if current ≠ "" then a.value ++ " " ++ current else a.value
  | .clear => ""

theorem Action.apply_eq (a : Action) (t : Txn) :
    a.apply t = setVal t a.field.str (.vstr (a.newValue t)) := by
  unfold Action.apply Action.newValue
  cases a.operation
  · rfl
  · by_cases h : (getValD t a.field.str (.vstr "")).pyStr ≠ "" <;> simp [h]
  · by_cases h : (getValD t a.field.str (.vstr "")).pyStr ≠ "" <;> simp [h]
  · rfl

theorem getVal?_actionApply (a : Action) (t : Txn) (k : String) :
    getVal? (a.apply t) k =
      if k = a.field.str then some (.vstr (a.newValue t)) else getVal? t k := by
  rw [Action.apply_eq, getVal?_setVal]

theorem Action.newValue_const (a : Action)
    (h : a.operation = .set ∨ a.operation = .clear) (t t' : Txn) :
    a.newValue t = a.newValue t' := by
  rcases h with h | h <;> unfold Action.newValue <;> rw [h]

/-! ## Condition and rule evaluation lemmas -/

theorem Condition.evaluate_field_congr (compile : RegexEngine) (c : Condition)
    {u v : Txn} (h : getVal? u c.field.str = getVal? v c.field.str) :
    c.evaluate compile u = c.evaluate compile v := by
  unfold Condition.evaluate
  rw [show getPy u c.field.str = getPy v c.field.str from by unfold getPy; rw [h]]

theorem pyAll_congr (compile : RegexEngine) (cs : List Condition) {u v : Txn}
    (h : ∀ c ∈ cs, getVal? u c.field.str = getVal? v c.field.str) :
    pyAll compile cs u = pyAll compile cs v := by
  induction cs with
  | nil => rfl
  | cons c rest ih =>
    unfold pyAll
    rw [Condition.evaluate_field_congr compile c (h c (List.mem_cons_self c rest)),
      ih (fun c' hc' => h c' (List.mem_cons_of_mem c hc'))]

theorem pyAny_congr (compile : RegexEngine) (cs : List Condition) {u v : Txn}
    (h : ∀ c ∈ cs, getVal? u c.field.str = getVal? v c.field.str) :
    pyAny compile cs u = pyAny compile cs v := by
  induction cs with
  | nil => rfl
  | cons c rest ih =>
    unfold pyAny
    rw [Condition.evaluate_field_congr compile c (h c (List.mem_cons_self c rest)),
      ih (fun c' hc' => h c' (List.mem_cons_of_mem c hc'))]

theorem Rule.evaluate_congr (compile : RegexEngine) (r : Rule) {u v : Txn}
    (h : ∀ c ∈ r.conditions, getVal? u c.field.str = getVal? v c.field.str) :
    r.evaluate compile u = r.evaluate compile v := by
  unfold Rule.evaluate
  rw [pyAll_congr compile r.conditions h, pyAny_congr compile r.conditions h]

theorem Rule.apply_of_false (compile : RegexEngine) (r : Rule) (t : Txn)
    (h : r.evaluate compile t = .ok false) : r.apply compile t = .ok t := by
  unfold Rule.apply
  rw [h]

theorem Rule.apply_of_true (compile : RegexEngine) (r : Rule) (t : Txn)
    (h : r.evaluate compile t = .ok true) :
    r.apply compile t = .ok (applyActions r.actions t) := by
  unfold Rule.apply
  rw [h]

/-! ## `processLoop` step equations -/

theorem processLoop_nil (compile : RegexEngine) (t : Txn) (acc : List String) :
    RulesEngine.processLoop compile [] t acc = .ok (t, acc) := rfl

theorem processLoop_disabled (compile : RegexEngine) (r : Rule) (rs : List Rule)
    (t : Txn) (acc : List String) (h : r.enabled = false) :
    RulesEngine.processLoop compile (r :: rs) t acc =
      RulesEngine.processLoop compile rs t acc := by
  conv_lhs => unfold RulesEngine.processLoop
  rw [h]
  rfl

theorem processLoop_not_matching (compile : RegexEngine) (r : Rule)
    (rs : List Rule) (t : Txn) (acc : List String) (he : r.enabled = true)
    (h : r.evaluate compile t = .ok false) :
    RulesEngine.processLoop compile (r :: rs) t acc =
      RulesEngine.processLoop compile rs t acc := by
  conv_lhs => unfold RulesEngine.processLoop
  rw [he, h]
  rfl

theorem processLoop_matching (compile : RegexEngine) (r : Rule) (rs : List Rule)
    (t : Txn) (acc : List String) (he : r.enabled = true)
    (h : r.evaluate compile t = .ok true) :
    RulesEngine.processLoop compile (r :: rs) t acc =
      RulesEngine.processLoop compile rs (applyActions r.actions t)
        (if dictEq (applyActions r.actions t) t then acc else acc ++ [r.name]) := by
  conv_lhs => unfold RulesEngine.processLoop
  rw [he, h, Rule.apply_of_true compile r t h]
  rfl

theorem processLoop_error (compile : RegexEngine) (r : Rule) (rs : List Rule)
    (t : Txn) (acc : List String) (he : r.enabled = true) (e : PyErr)
    (h : r.evaluate compile t = .error e) :
    RulesEngine.processLoop compile (r :: rs) t acc = .error e := by
  conv_lhs => unfold RulesEngine.processLoop
  rw [he, h]
  rfl

/-- The applied-rule list only ever grows, and when nothing was appended the
record went through the whole loop dict-unchanged. -/
theorem processLoop_applied_extend (compile : RegexEngine) (L : List Rule) :
    ∀ (t t' : Txn) (acc acc' : List String),
      RulesEngine.processLoop compile L t acc = .ok (t', acc') →
      ∃ δ, acc' = acc ++ δ ∧ (δ = [] → dictEq t' t = true) := by
  induction L with
  | nil =>
    intro t t' acc acc' h
    rw [processLoop_nil] at h
    obtain ⟨rfl, rfl⟩ : t = t' ∧ acc = acc' := by
      cases h
      exact ⟨rfl, rfl⟩
    exact ⟨[], by simp, fun _ => dictEq_refl t⟩
  | cons r rs ih =>
    intro t t' acc acc' h
    by_cases he : r.enabled
    · rcases hev : r.evaluate compile t with e | b
      · rw [processLoop_error compile r rs t acc he e hev] at h
        cases h
      · cases b
        · rw [processLoop_not_matching compile r rs t acc he hev] at h
          exact ih t t' acc acc' h
        · rw [processLoop_matching compile r rs t acc he hev] at h
          by_cases hde : dictEq (applyActions r.actions t) t
          · rw [if_pos hde] at h
            obtain ⟨δ, hδ, himp⟩ := ih _ t' acc acc' h
            exact ⟨δ, hδ, fun hnil => dictEq_trans (himp hnil) hde⟩
          · rw [if_neg hde] at h
            obtain ⟨δ, hδ, _⟩ := ih _ t' (acc ++ [r.name]) acc' h
            refine ⟨[r.name] ++ δ, ?_, fun hnil => by cases hnil⟩
            rw [hδ, List.append_assoc]
    · rw [processLoop_disabled compile r rs t acc (by revert he; cases r.enabled <;> simp)] at h
      exact ih t t' acc acc' h

/-! ## Sorting lemmas: `sortRules` is the stable priority-descending sort -/

theorem insertRule_perm (r : Rule) (l : List Rule) :
    (insertRule r l).Perm (r :: l) := by
  induction l with
  | nil => exact List.Perm.refl _
  | cons x t ih =>
    show (if x.priority > r.priority then x :: insertRule r t else r :: x :: t).Perm _
    by_cases h : x.priority > r.priority
    · rw [if_pos h]
      exact (List.Perm.cons x ih).trans (List.Perm.swap r x t)
    · rw [if_neg h]

theorem sortRules_perm (l : List Rule) : (sortRules l).Perm l := by
  induction l with
  | nil => exact List.Perm.refl _
  | cons x t ih =>
    show (insertRule x (sortRules t)).Perm (x :: t)
    exact (insertRule_perm x (sortRules t)).trans (List.Perm.cons x ih)

theorem mem_sortRules {r : Rule} {l : List Rule} : r ∈ sortRules l ↔ r ∈ l :=
  (sortRules_perm l).mem_iff

theorem insertRule_sorted (r : Rule) (l : List Rule)
    (h : l.Pairwise (fun a b => b.priority ≤ a.priority)) :
    (insertRule r l).Pairwise (fun a b => b.priority ≤ a.priority) := by
  induction l with
  | nil => simp [insertRule]
  | cons x t ih =>
    obtain ⟨hx, ht⟩ := List.pairwise_cons.mp h
    show (if x.priority > r.priority then x :: insertRule r t else r :: x :: t).Pairwise _
    by_cases hc : x.priority > r.priority
    · rw [if_pos hc]
      rw [List.pairwise_cons]
      constructor
      · intro y hy
        rcases List.mem_cons.mp ((insertRule_perm r t).mem_iff.mp hy) with rfl | hyt
        · exact le_of_lt hc
        · exact hx y hyt
      · exact ih ht
    · rw [if_neg hc]
      rw [List.pairwise_cons]
      refine ⟨fun y hy => ?_, h⟩
      rcases List.mem_cons.mp hy with rfl | hyt
      · omega
      · exact le_trans (hx y hyt) (by omega)

theorem sortRules_sorted (l : List Rule) :
    (sortRules l).Pairwise (fun a b => b.priority ≤ a.priority) := by
  induction l with
  | nil => exact List.Pairwise.nil
  | cons x t ih => exact insertRule_sorted x (sortRules t) ih

theorem filter_insertRule (r : Rule) (l : List Rule) (p : Int) :
    (insertRule r l).filter (fun x => decide (x.priority = p)) =
      if r.priority = p then r :: l.filter (fun x => decide (x.priority = p))
      else l.filter (fun x => decide (x.priority = p)) := by
  induction l with
  | nil =>
    by_cases h : r.priority = p <;> simp [insertRule, List.filter_cons, h]
  | cons x t ih =>
    show (if x.priority > r.priority then x :: insertRule r t else r :: x :: t).filter _ = _
    by_cases hc : x.priority > r.priority
    · rw [if_pos hc]
      by_cases h : r.priority = p
      · have hx : ¬ x.priority = p := by omega
        rw [if_pos h]
        simp [List.filter_cons, hx, ih, h]
      · rw [if_neg h]
        simp [List.filter_cons, ih, h]
    · rw [if_neg hc]
      by_cases h : r.priority = p <;> simp [List.filter_cons, h]

theorem sortRules_filter (l : List Rule) (p : Int) :
    (sortRules l).filter (fun x => decide (x.priority = p)) =
      l.filter (fun x => decide (x.priority = p)) := by
  induction l with
  | nil => rfl
  | cons x t ih =>
    show (insertRule x (sortRules t)).filter _ = _
    rw [filter_insertRule]
    by_cases h : x.priority = p
    · rw [if_pos h, ih]
      simp [List.filter_cons, h]
    · rw [if_neg h, ih]
      simp [List.filter_cons, h]

/-! ## Frame and simulation lemmas (for the idempotence analysis of C8) -/

theorem applyActions_frame (acts : List Action) (F : List String)
    (hF : ∀ a ∈ acts, a.field.str ∈ F) :
    ∀ (u : Txn) (k : String), k ∉ F → getVal? (applyActions acts u) k = getVal? u k := by
  induction acts with
  | nil => intro u k _; rfl
  | cons a rest ih =>
    intro u k hk
    show getVal? (applyActions rest (a.apply u)) k = _
    rw [ih (fun a' ha' => hF a' (List.mem_cons_of_mem a ha')) (a.apply u) k hk,
      getVal?_actionApply]
    rw [if_neg (fun he => hk (by rw [he]; exact hF a (List.mem_cons_self a rest)))]

/-- Two-run invariant: each key either already agrees between the two runs,
or is still untouched in both runs (holding its respective initial value). -/
def simInv (u0 v0 u v : Txn) : Prop :=
  ∀ k, getVal? u k = getVal? v k ∨
    (getVal? u k = getVal? u0 k ∧ getVal? v k = getVal? v0 k)

theorem simInv_action (u0 v0 : Txn) (a : Action)
    (hop : a.operation = .set ∨ a.operation = .clear) {u v : Txn}
    (h : simInv u0 v0 u v) : simInv u0 v0 (a.apply u) (a.apply v) := by
  intro k
  rw [getVal?_actionApply, getVal?_actionApply]
  by_cases hk : k = a.field.str
  · rw [if_pos hk, if_pos hk, Action.newValue_const a hop u v]
    exact Or.inl rfl
  · rw [if_neg hk, if_neg hk]
    exact h k

theorem simInv_applyActions (u0 v0 : Txn) (acts : List Action)
    (hops : ∀ a ∈ acts, a.operation = .set ∨ a.operation = .clear) :
    ∀ {u v : Txn}, simInv u0 v0 u v →
      simInv u0 v0 (applyActions acts u) (applyActions acts v) := by
  induction acts with
  | nil => intro u v h; exact h
  | cons a rest ih =>
    intro u v h
    exact ih (fun a' ha' => hops a' (List.mem_cons_of_mem a ha'))
      (simInv_action u0 v0 a (hops a (List.mem_cons_self a rest)) h)

theorem evaluate_agree_of_simInv (compile : RegexEngine) (F : List String)
    (u0 v0 : Txn) (h0 : ∀ k, k ∉ F → getVal? u0 k = getVal? v0 k)
    (r : Rule) (hr : ∀ c ∈ r.conditions, c.field.str ∉ F)
    {u v : Txn} (h : simInv u0 v0 u v) :
    r.evaluate compile u = r.evaluate compile v := by
  refine Rule.evaluate_congr compile r (fun c hc => ?_)
  rcases h c.field.str with heq | ⟨hu, hv⟩
  · exact heq
  · rw [hu, hv]
    exact h0 c.field.str (hr c hc)

theorem processLoop_writes (compile : RegexEngine) (F : List String) :
    ∀ (L : List Rule), (∀ r ∈ L, ∀ a ∈ r.actions, a.field.str ∈ F) →
    ∀ (u t' : Txn) (acc acc' : List String),
      RulesEngine.processLoop compile L u acc = .ok (t', acc') →
      ∀ k, k ∉ F → getVal? t' k = getVal? u k := by
  intro L
  induction L with
  | nil =>
    intro _ u t' acc acc' h k _
    rw [processLoop_nil] at h
    cases h
    rfl
  | cons r rs ih =>
    intro hL u t' acc acc' h k hk
    have hLrs := fun r' h' => hL r' (List.mem_cons_of_mem r h')
    by_cases he : r.enabled
    · rcases hev : r.evaluate compile u with e | b
      · rw [processLoop_error compile r rs u acc he e hev] at h
        cases h
      · cases b
        · rw [processLoop_not_matching compile r rs u acc he hev] at h
          exact ih hLrs u t' acc acc' h k hk
        · rw [processLoop_matching compile r rs u acc he hev] at h
          rw [ih hLrs _ t' _ acc' h k hk]
          exact applyActions_frame r.actions F (hL r (List.mem_cons_self r rs)) u k hk
    · rw [processLoop_disabled compile r rs u acc (by revert he; cases r.enabled <;> simp)] at h
      exact ih hLrs u t' acc acc' h k hk

theorem processLoop_sim (compile : RegexEngine) (F : List String)
    (u0 v0 : Txn) (h0 : ∀ k, k ∉ F → getVal? u0 k = getVal? v0 k) :
    ∀ (L : List Rule),
      (∀ r ∈ L, (∀ c ∈ r.conditions, c.field.str ∉ F) ∧
        (∀ a ∈ r.actions, a.operation = .set ∨ a.operation = .clear)) →
      ∀ (u v t' : Txn) (accu accv accu' : List String), simInv u0 v0 u v →
        RulesEngine.processLoop compile L u accu = .ok (t', accu') →
        ∃ t'' accv', RulesEngine.processLoop compile L v accv = .ok (t'', accv') ∧
          simInv u0 v0 t' t'' := by
  intro L
  induction L with
  | nil =>
    intro _ u v t' accu accv accu' hinv h
    rw [processLoop_nil] at h
    cases h
    exact ⟨v, accv, processLoop_nil compile v accv, hinv⟩
  | cons r rs ih =>
    intro hL u v t' accu accv accu' hinv h
    have hLr := hL r (List.mem_cons_self r rs)
    have hLrs := fun r' h' => hL r' (List.mem_cons_of_mem r h')
    by_cases he : r.enabled
    · have hagree : r.evaluate compile u = r.evaluate compile v :=
        evaluate_agree_of_simInv compile F u0 v0 h0 r hLr.1 hinv
      rcases hev : r.evaluate compile u with e | b
      · rw [processLoop_error compile r rs u accu he e hev] at h
        cases h
      · cases b
        · rw [processLoop_not_matching compile r rs u accu he hev] at h
          obtain ⟨t'', accv', hrun, hinv'⟩ := ih hLrs u v t' accu accv accu' hinv h
          refine ⟨t'', accv', ?_, hinv'⟩
          rw [processLoop_not_matching compile r rs v accv he (hagree.symm.trans hev)]
          exact hrun
        · rw [processLoop_matching compile r rs u accu he hev] at h
          have hinv' := simInv_applyActions u0 v0 r.actions hLr.2 hinv
          obtain ⟨t'', accv', hrun, hinvf⟩ :=
            ih hLrs (applyActions r.actions u) (applyActions r.actions v) t' _
              (if dictEq (applyActions r.actions v) v then accv else accv ++ [r.name])
              accu' hinv' h
          refine ⟨t'', accv', ?_, hinvf⟩
          rw [processLoop_matching compile r rs v accv he (hagree.symm.trans hev)]
          exact hrun
    · rw [processLoop_disabled compile r rs u accu (by revert he; cases r.enabled <;> simp)] at h
      obtain ⟨t'', accv', hrun, hinv'⟩ := ih hLrs u v t' accu accv accu' hinv h
      refine ⟨t'', accv', ?_, hinv'⟩
      rw [processLoop_disabled compile r rs v accv (by revert he; cases r.enabled <;> simp)]
      exact hrun

/-- All fields written by any action of any rule in the list. -/
def actionFields (rules : List Rule) : List String :=
  (rules.map (fun r => r.actions.map (fun a => a.field.str))).flatten

theorem mem_actionFields {rules : List Rule} {r : Rule} {a : Action}
    (hr : r ∈ rules) (ha : a ∈ r.actions) : a.field.str ∈ actionFields rules := by
  unfold actionFields
  rw [List.mem_flatten]
  exact ⟨r.actions.map (fun a => a.field.str), List.mem_map_of_mem _ hr,
    List.mem_map_of_mem _ ha⟩

theorem actionFields_mem {rules : List Rule} {k : String}
    (h : k ∈ actionFields rules) :
    ∃ r ∈ rules, ∃ a ∈ r.actions, k = a.field.str := by
  unfold actionFields at h
  rw [List.mem_flatten] at h
  obtain ⟨sub, hsub, hk⟩ := h
  rw [List.mem_map] at hsub
  obtain ⟨r, hr, rfl⟩ := hsub
  rw [List.mem_map] at hk
  obtain ⟨a, ha, rfl⟩ := hk
  exact ⟨r, hr, a, ha, rfl⟩

/-! ## Report characterization (spec-side shapes for `process_transactions`) -/

/-- Spec-shaped per-transaction results of a batch: each entry is the original
record, the final record and the applied rule names, with
`process_transaction` run independently per transaction. -/
def specResults (compile : RegexEngine) (s : RuleStorage) :
    List Txn → Except PyErr (List (Txn × Txn × List String))
  | [] => .ok []
  | tx :: rest =>
    match RulesEngine.process_transaction compile s tx with
    | .error e => .error e
    | .ok (m, ar) =>
      match specResults compile s rest with
      | .error e => .error e
      | .ok l => .ok ((tx, m, ar) :: l)

/-- Spec-shaped modifications entry for one per-transaction result: present
exactly when some rule was applied and the original-to-final diff is
nonempty. -/
def specModEntry (x : Txn × Txn × List String) : Option Modification :=
  if x.2.2.isEmpty then none
  else
    let ch := getTransactionChanges x.1 x.2.1
    if ch.isEmpty then none
    else some ⟨getValD x.1 "id" (.vstr "unknown"),
      getValD x.1 "payee_name" (.vstr "unknown"), x.2.2, ch⟩

/-- Fold all the applied names of the whole batch into the name→count dict. -/
def buildCounts (names : List String) : List (String × Nat) :=
  names.foldl bumpCount []

/-- Spec-shaped report over an accumulator (`reportAcc res []` is `res` up to
trivial arithmetic; `reportAcc` of the initial accumulator is the report the
claim describes). -/
def reportAcc (res : Report) (l : List (Txn × Txn × List String)) : Report :=
  { total_transactions := res.total_transactions,
    modified_transactions := res.modified_transactions + l.countP (fun x => !x.2.2.isEmpty),
    rules_applied := ((l.map (fun x => x.2.2)).flatten).foldl bumpCount res.rules_applied,
    modifications := res.modifications ++ l.filterMap specModEntry,
    dry_run := res.dry_run }

/-- Spec-shaped report for a whole batch. -/
def specReport (n : Nat) (dry : Bool) (l : List (Txn × Txn × List String)) : Report :=
  { total_transactions := n,
    modified_transactions := l.countP (fun x => !x.2.2.isEmpty),
    rules_applied := buildCounts ((l.map (fun x => x.2.2)).flatten),
    modifications := l.filterMap specModEntry,
    dry_run := dry }

theorem reportAcc_step (tx m : Txn) (ar : List String) (res : Report)
    (l : List (Txn × Txn × List String)) :
    reportAcc (RulesEngine.batchStep tx m ar res) l = reportAcc res ((tx, m, ar) :: l) := by
  unfold reportAcc RulesEngine.batchStep specModEntry
  by_cases har : ar.isEmpty
  · have har' : ar = [] := List.isEmpty_iff.mp har
    simp [har, har']
  · have har' : ¬ ar = [] := fun h => har (by rw [h]; rfl)
    rw [if_neg har]
    by_cases hch : (getTransactionChanges tx m).isEmpty
    · have hch' : getTransactionChanges tx m = [] := List.isEmpty_iff.mp hch
      rw [if_pos hch]
      simp [har, har', hch', List.filterMap_cons, List.foldl_append,
        Nat.add_assoc, Nat.add_comm 1]
    · have hch' : ¬ getTransactionChanges tx m = [] := fun h => hch (by rw [h]; rfl)
      rw [if_neg hch]
      simp [har, har', hch', List.filterMap_cons, List.foldl_append,
        Nat.add_assoc, Nat.add_comm 1]

theorem specResults_cons_error (compile : RegexEngine) (s : RuleStorage)
    (tx : Txn) (rest : List Txn) (e : PyErr)
    (h : RulesEngine.process_transaction compile s tx = .error e) :
    specResults compile s (tx :: rest) = .error e := by
  conv_lhs => unfold specResults
  rw [h]

theorem specResults_cons_ok (compile : RegexEngine) (s : RuleStorage)
    (tx : Txn) (rest : List Txn) (m : Txn) (ar : List String)
    (h : RulesEngine.process_transaction compile s tx = .ok (m, ar)) :
    specResults compile s (tx :: rest) =
      match specResults compile s rest with
      | .error e => .error e
      | .ok l => .ok ((tx, m, ar) :: l) := by
  conv_lhs => unfold specResults
  rw [h]

theorem processBatch_eq (compile : RegexEngine) (s : RuleStorage) :
    ∀ (txns : List Txn) (res : Report),
      RulesEngine.processBatch compile s txns res =
        (specResults compile s txns).map (reportAcc res) := by
  intro txns
  induction txns with
  | nil =>
    intro res
    show Except.ok res = Except.ok (reportAcc res [])
    unfold reportAcc
    obtain ⟨a, b, c, d, e⟩ := res
    simp
  | cons tx rest ih =>
    intro res
    show (match RulesEngine.process_transaction compile s tx with
      | .error e => .error e
      | .ok (m, ar) =>
        RulesEngine.processBatch compile s rest (RulesEngine.batchStep tx m ar res)) =
      (specResults compile s (tx :: rest)).map (reportAcc res)
    rcases hpt : RulesEngine.process_transaction compile s tx with e | ⟨m, ar⟩
    · rw [specResults_cons_error compile s tx rest e hpt]
      rfl
    · rw [specResults_cons_ok compile s tx rest m ar hpt]
      show RulesEngine.processBatch compile s rest (RulesEngine.batchStep tx m ar res) = _
      rw [ih (RulesEngine.batchStep tx m ar res)]
      rcases hsr : specResults compile s rest with e | l
      · rfl
      · show Except.ok (reportAcc (RulesEngine.batchStep tx m ar res) l) = _
        rw [reportAcc_step]
        rfl

theorem process_transactions_eq (compile : RegexEngine) (s : RuleStorage)
    (txns : List Txn) (dry : Bool) :
    RulesEngine.process_transactions compile s txns dry =
      (specResults compile s txns).map (specReport txns.length dry) := by
  unfold RulesEngine.process_transactions
  rw [processBatch_eq]
  rcases hsr : specResults compile s txns with e | l
  · rfl
  · show Except.ok _ = Except.ok _
    unfold reportAcc specReport buildCounts
    simp

/-! ## Counting lemmas for `rules_applied` -/

theorem lookup_pair_cons (m k : String) (c : Nat) (t : List (String × Nat)) :
    ((k, c) :: t).lookup m = if m = k then some c else t.lookup m := by
  by_cases h : m = k
  · rw [if_pos h]
    show (match m == k with | true => some c | false => t.lookup m) = some c
    rw [show (m == k) = true from beq_iff_eq.mpr h]
  · rw [if_neg h]
    show (match m == k with | true => some c | false => t.lookup m) = t.lookup m
    have hb : (m == k) = false := by
      rcases hbe : m == k
      · rfl
      · exact absurd (beq_iff_eq.mp hbe) h
    rw [hb]

theorem lookup_bumpCount (l : List (String × Nat)) (n m : String) :
    (bumpCount l n).lookup m =
      if m = n then some ((l.lookup n).getD 0 + 1) else l.lookup m := by
  induction l with
  | nil =>
    show ([(n, 1)].lookup m) = _
    rw [lookup_pair_cons]
    by_cases h : m = n <;> simp [h, List.lookup]
  | cons p t ih =>
    obtain ⟨k, c⟩ := p
    show (if k = n then (k, c + 1) :: t else (k, c) :: bumpCount t n).lookup m = _
    by_cases hk : k = n
    · subst hk
      rw [if_pos rfl]
      simp only [lookup_pair_cons]
      by_cases hm : m = k <;> simp [hm]
    · rw [if_neg hk]
      have hnk : ¬ n = k := fun h => hk h.symm
      simp only [lookup_pair_cons]
      by_cases hm : m = k
      · have hmn : ¬ m = n := fun h => hk (hm.symm.trans h)
        simp [hm, hmn, hk]
      · simp [hm, hnk, hk, ih]

theorem lookup_foldl_bumpCount (names : List String) :
    ∀ (init : List (String × Nat)) (m : String),
      (names.foldl bumpCount init).lookup m =
        if names.count m = 0 then init.lookup m
        else some ((init.lookup m).getD 0 + names.count m) := by
  induction names with
  | nil => intro init m; simp
  | cons n rest ih =>
    intro init m
    show (rest.foldl bumpCount (bumpCount init n)).lookup m = _
    rw [ih (bumpCount init n) m, lookup_bumpCount]
    by_cases hmn : m = n
    · subst hmn
      have hc : (m :: rest).count m = rest.count m + 1 := by
        simp [List.count_cons]
      rw [hc, if_pos rfl]
      by_cases h0 : rest.count m = 0
      · simp [h0]
      · rw [if_neg h0, if_neg (by omega)]
        simp
        omega
    · have hnm : ¬ n = m := fun h => hmn h.symm
      have hc : (n :: rest).count m = rest.count m := by
        simp [List.count_cons, hnm]
      rw [hc, if_neg hmn]

theorem lookup_buildCounts (names : List String) (m : String) :
    (buildCounts names).lookup m =
      if names.count m = 0 then none else some (names.count m) := by
  unfold buildCounts
  rw [lookup_foldl_bumpCount]
  by_cases h : names.count m = 0 <;> simp [h, List.lookup]

/-- `_get_transaction_changes` computes exactly the per-field structural diff:
an entry per changed key, per key only in the modified record (old null), and
per key only in the original record (new null). -/
theorem mem_getTransactionChanges (original modified : Txn) (c : Change) :
    c ∈ getTransactionChanges original modified ↔
      ((∃ ov mv, getVal? original c.field = some ov ∧ getVal? modified c.field = some mv ∧
          ov ≠ mv ∧ c.old_value = ov ∧ c.new_value = mv) ∨
       (getVal? original c.field = none ∧ ∃ mv, getVal? modified c.field = some mv ∧
          c.old_value = .vnone ∧ c.new_value = mv) ∨
       (getVal? modified c.field = none ∧ ∃ ov, getVal? original c.field = some ov ∧
          c.old_value = ov ∧ c.new_value = .vnone)) := by
  obtain ⟨cf, co, cn⟩ := c
  unfold getTransactionChanges
  simp only [List.mem_append, List.mem_filterMap]
  constructor
  · rintro (⟨k, hk, hfk⟩ | ⟨k, hk, hfk⟩)
    · rcases ho : getVal? original k with _ | ov <;>
        rcases hm : getVal? modified k with _ | mv <;> rw [ho, hm] at hfk
      · cases hfk
      · simp only [Option.some.injEq, Change.mk.injEq] at hfk
        obtain ⟨rfl, rfl, rfl⟩ := hfk
        exact Or.inr (Or.inl ⟨ho, mv, hm, rfl, rfl⟩)
      · cases hfk
      · dsimp only at hfk
        by_cases hov : ov = mv
        · rw [if_pos hov] at hfk
          cases hfk
        · rw [if_neg hov] at hfk
          simp only [Option.some.injEq, Change.mk.injEq] at hfk
          obtain ⟨rfl, rfl, rfl⟩ := hfk
          exact Or.inl ⟨ov, mv, ho, hm, hov, rfl, rfl⟩
    · rcases hm : getVal? modified k with _ | mv <;> rw [hm] at hfk
      · simp only [Option.some.injEq, Change.mk.injEq] at hfk
        obtain ⟨rfl, rfl, rfl⟩ := hfk
        obtain ⟨ov, ho⟩ := Option.isSome_iff_exists.mp ((getVal?_isSome original k).mpr hk)
        refine Or.inr (Or.inr ⟨hm, ov, ho, ?_, rfl⟩)
        unfold getPy
        rw [ho]
        rfl
      · cases hfk
  · rintro (⟨ov, mv, ho, hm, hne, rfl, rfl⟩ | ⟨ho, mv, hm, rfl, rfl⟩ |
      ⟨hm, ov, ho, rfl, rfl⟩)
    · refine Or.inl ⟨cf, (getVal?_isSome modified cf).mp (by rw [hm]; rfl), ?_⟩
      rw [ho, hm]
      dsimp only
      rw [if_neg hne]
    · refine Or.inl ⟨cf, (getVal?_isSome modified cf).mp (by rw [hm]; rfl), ?_⟩
      rw [ho, hm]
    · refine Or.inr ⟨cf, (getVal?_isSome original cf).mp (by rw [ho]; rfl), ?_⟩
      rw [hm]
      unfold getPy
      rw [ho]
      rfl

/-! ## Claim theorems -/

/-- A concrete regex engine for witnesses: every pattern fails to compile. -/
def noRegex : RegexEngine := fun _ => none

/-- **C1**: `process_transaction` runs the loaded rules in priority order
(the loaded list is sorted by priority, highest first) over the record:
a disabled rule is skipped; an enabled rule is evaluated against the current,
possibly already-modified record; a non-matching rule changes nothing; a
matching rule rewrites the record to the fold of its actions — the modified
record feeding the next rule, so several rules can rewrite one transaction in
a single pass — and its name is appended exactly when the post-apply record
differs from the pre-apply record under whole-record structural equality. -/
theorem c1_process_transaction_loop (compile : RegexEngine) (s : RuleStorage)
    (t : Txn) :
    (RulesEngine.process_transaction compile s t =
      RulesEngine.processLoop compile (RulesEngine.load_rules s) t []) ∧
    (RulesEngine.load_rules s).Pairwise (fun a b => b.priority ≤ a.priority) ∧
    (∀ (r : Rule) (rs : List Rule) (u : Txn) (acc : List String),
      r.enabled = false →
      RulesEngine.processLoop compile (r :: rs) u acc =
        RulesEngine.processLoop compile rs u acc) ∧
    (∀ (r : Rule) (rs : List Rule) (u : Txn) (acc : List String),
      r.enabled = true → r.evaluate compile u = .ok false →
      RulesEngine.processLoop compile (r :: rs) u acc =
        RulesEngine.processLoop compile rs u acc) ∧
    (∀ (r : Rule) (rs : List Rule) (u : Txn) (acc : List String),
      r.enabled = true → r.evaluate compile u = .ok true →
      RulesEngine.processLoop compile (r :: rs) u acc =
        RulesEngine.processLoop compile rs (applyActions r.actions u)
          (if dictEq (applyActions r.actions u) u then acc else acc ++ [r.name])) :=
  ⟨rfl, sortRules_sorted s.rules,
    fun r rs u acc h => processLoop_disabled compile r rs u acc h,
    fun r rs u acc he h => processLoop_not_matching compile r rs u acc he h,
    fun r rs u acc he h => processLoop_matching compile r rs u acc he h⟩

/-- Witness for C1: the three step equations at concrete rules and records. -/
theorem c1_witness :
    (RulesEngine.processLoop noRegex
        [Rule.mk "D" "" [Condition.mk .memo .equals (.vstr "m")]
          [Action.mk .memo .set "x"] false 5 "d" .and]
        [("memo", Value.vstr "m")] [] =
      RulesEngine.processLoop noRegex [] [("memo", Value.vstr "m")] []) ∧
    (RulesEngine.processLoop noRegex
        [Rule.mk "N" "" [Condition.mk .memo .equals (.vstr "z")]
          [Action.mk .memo .set "x"] true 5 "n" .and]
        [("memo", Value.vstr "m")] [] =
      RulesEngine.processLoop noRegex [] [("memo", Value.vstr "m")] []) ∧
    (RulesEngine.processLoop noRegex
        [Rule.mk "M" "" [Condition.mk .memo .equals (.vstr "m")]
          [Action.mk .memo .set "x"] true 5 "m" .and]
        [("memo", Value.vstr "m")] [] =
      RulesEngine.processLoop noRegex []
        (applyActions [Action.mk .memo .set "x"] [("memo", Value.vstr "m")])
        (if dictEq (applyActions [Action.mk .memo .set "x"] [("memo", Value.vstr "m")])
            [("memo", Value.vstr "m")] then [] else [] ++ ["M"])) :=
  ⟨(c1_process_transaction_loop noRegex ⟨[]⟩ []).2.2.1 _ [] _ [] rfl,
   (c1_process_transaction_loop noRegex ⟨[]⟩ []).2.2.2.1 _ [] _ [] rfl rfl,
   (c1_process_transaction_loop noRegex ⟨[]⟩ []).2.2.2.2 _ [] _ [] rfl rfl⟩

/-- **C3**: a rule with an empty conditions list never matches any
transaction, whatever its logic operator. -/
theorem c3_empty_conditions_never_matches (compile : RegexEngine) (r : Rule)
    (t : Txn) (h : r.conditions = []) : r.evaluate compile t = .ok false := by
  unfold Rule.evaluate
  rw [h]
  rfl

/-- Witness for C3 at a concrete rule (with `or` logic) and transaction. -/
theorem c3_witness :
    (Rule.mk "R" "" [] [Action.mk .memo .set "x"] true 0 "id0" .or).evaluate
      noRegex [("memo", Value.vstr "m")] = .ok false :=
  c3_empty_conditions_never_matches noRegex _ _ rfl

/-- **C5**: `Rule.apply` returns the input unchanged when the rule does not
match, and the in-order fold of the rule's actions when it does; the fold
threads the record, so each action receives the record produced by the
previous one. -/
theorem c5_rule_apply_spec (compile : RegexEngine) (r : Rule) (t : Txn) :
    (r.evaluate compile t = .ok false → r.apply compile t = .ok t) ∧
    (r.evaluate compile t = .ok true →
      r.apply compile t = .ok (applyActions r.actions t)) ∧
    (∀ (a : Action) (acts : List Action) (u : Txn),
      applyActions (a :: acts) u = applyActions acts (a.apply u)) :=
  ⟨Rule.apply_of_false compile r t, Rule.apply_of_true compile r t,
    fun _ _ _ => rfl⟩

/-- Witness for C5: a non-matching rule is the identity; a matching rule
applies its action list. -/
theorem c5_witness :
    ((Rule.mk "R" "" [] [Action.mk .memo .set "x"] true 0 "id0" .and).apply
        noRegex [("memo", Value.vstr "m")] = .ok [("memo", Value.vstr "m")]) ∧
    ((Rule.mk "R" "" [Condition.mk .memo .equals (.vstr "m")]
        [Action.mk .memo .set "x"] true 0 "id0" .and).apply noRegex
        [("memo", Value.vstr "m")] =
      .ok (applyActions [Action.mk .memo .set "x"] [("memo", Value.vstr "m")])) :=
  ⟨(c5_rule_apply_spec noRegex _ _).1 rfl,
   (c5_rule_apply_spec noRegex _ _).2.1 rfl⟩

/-- **C6**: `load_rules` returns the stored rules stably sorted by priority
descending: sorted, a permutation of the store's list (so disabled rules are
included), disabled rules are present, and for every priority the
subsequence of rules of that priority keeps the store's order (stability). -/
theorem c6_load_rules_sorted_stable (s : RuleStorage) :
    (RulesEngine.load_rules s).Pairwise (fun a b => b.priority ≤ a.priority) ∧
    (RulesEngine.load_rules s).Perm s.rules ∧
    (∀ r : Rule, r.enabled = false → r ∈ s.rules →
      r ∈ RulesEngine.load_rules s) ∧
    (∀ p : Int,
      (RulesEngine.load_rules s).filter (fun x => decide (x.priority = p)) =
        s.rules.filter (fun x => decide (x.priority = p))) :=
  ⟨sortRules_sorted s.rules, sortRules_perm s.rules,
    fun _ _ hr => mem_sortRules.mpr hr, sortRules_filter s.rules⟩

/-- Witness for C6: a disabled rule stays in the loaded sequence. -/
theorem c6_witness :
    (Rule.mk "D" "" [] [] false 0 "d" .and) ∈
      RulesEngine.load_rules ⟨[Rule.mk "D" "" [] [] false 0 "d" .and]⟩ :=
  (c6_load_rules_sorted_stable _).2.2.1 _ rfl (List.mem_singleton.mpr rfl)

/-- **C7**: `append` writes `"{current} {value}"` (single space) when the
stringified current value is non-empty and `value` when it is empty or the
field is absent; `prepend` is symmetric; including the spec's concrete
examples on the memo field. -/
theorem c7_append_prepend (f : ActionField) (v : String) (t : Txn) :
    ((Action.mk f .append v).apply t =
      setVal t f.str (.vstr
        (if (getValD t f.str (.vstr "")).pyStr = "" then v
         else (getValD t f.str (.vstr "")).pyStr ++ " " ++ v))) ∧
    ((Action.mk f .prepend v).apply t =
      setVal t f.str (.vstr
        (if (getValD t f.str (.vstr "")).pyStr = "" then v
         else v ++ " " ++ (getValD t f.str (.vstr "")).pyStr))) ∧
    ((Action.mk .memo .append "tag").apply [("memo", Value.vstr "note")] =
      [("memo", Value.vstr "note tag")]) ∧
    ((Action.mk .memo .append "tag").apply [] = [("memo", Value.vstr "tag")]) := by
  refine ⟨?_, ?_, rfl, rfl⟩
  · show (if (getValD t f.str (.vstr "")).pyStr ≠ "" then
        setVal t f.str (.vstr ((getValD t f.str (.vstr "")).pyStr ++ " " ++ v))
      else setVal t f.str (.vstr v)) = _
    by_cases h : (getValD t f.str (.vstr "")).pyStr = ""
    · rw [if_neg (fun hne => hne h), if_pos h]
    · rw [if_pos h, if_neg h]
  · show (if (getValD t f.str (.vstr "")).pyStr ≠ "" then
        setVal t f.str (.vstr (v ++ " " ++ (getValD t f.str (.vstr "")).pyStr))
      else setVal t f.str (.vstr v)) = _
    by_cases h : (getValD t f.str (.vstr "")).pyStr = ""
    · rw [if_neg (fun hne => hne h), if_pos h]
    · rw [if_pos h, if_neg h]

/-- **C9** (frame property): an action leaves every field other than its
target unchanged, and the result's key set is exactly the input's keys plus
the target field (appended at the end when new).  The input record itself is
untouched: the embedding is pure, mirroring the source's copy-before-write. -/
theorem c9_action_frame (a : Action) (t : Txn) (k : String) :
    (k ≠ a.field.str → getVal? (a.apply t) k = getVal? t k) ∧
    (hasKey (a.apply t) k = (hasKey t k || decide (k = a.field.str))) ∧
    (keysOf (a.apply t) =
      if hasKey t a.field.str then keysOf t else keysOf t ++ [a.field.str]) := by
  refine ⟨fun hk => ?_, ?_, ?_⟩
  · rw [getVal?_actionApply, if_neg hk]
  · rw [Action.apply_eq, hasKey_setVal]
  · rw [Action.apply_eq, keysOf_setVal]

/-- Witness for C9: setting the memo leaves the id field unchanged. -/
theorem c9_witness :
    getVal? ((Action.mk .memo .set "x").apply [("id", Value.vstr "1")]) "id" =
      getVal? [("id", Value.vstr "1")] "id" :=
  (c9_action_frame (Action.mk .memo .set "x") [("id", Value.vstr "1")] "id").1
    (by decide)

/-- **C10**: when `process_transaction` returns with an empty applied-rules
list, the returned record is structurally equal (Python `dict ==`) to the
input: the engine never silently changes a transaction without reporting a
rule name. -/
theorem c10_no_silent_change (compile : RegexEngine) (s : RuleStorage)
    (t t' : Txn)
    (h : RulesEngine.process_transaction compile s t = .ok (t', [])) :
    dictEq t' t = true := by
  obtain ⟨δ, hδ, himp⟩ :=
    processLoop_applied_extend compile (RulesEngine.load_rules s) t t' [] [] h
  exact himp (by simpa using hδ.symm)

/-- Witness for C10 with the empty rule store. -/
theorem c10_witness :
    dictEq [("memo", Value.vstr "m")] [("memo", Value.vstr "m")] = true :=
  c10_no_silent_change noRegex ⟨[]⟩ [("memo", Value.vstr "m")]
    [("memo", Value.vstr "m")] rfl

/-- **C4** (code bug): `Condition.evaluate` degrades to `False` on a missing
or `None` field, on float-parse failure of either operand for
`greater_than`/`less_than`, and on an invalid *string* regex pattern; but the
regex branch catches only `re.error`, so a non-string pattern value reaches
`re.compile` and raises an uncaught `TypeError` — "never raises for any
condition" fails there. -/
theorem c4_condition_error_handling :
    (∀ (compile : RegexEngine) (c : Condition) (t : Txn),
      getPy t c.field.str = .vnone → c.evaluate compile t = .ok false) ∧
    (∀ (compile : RegexEngine) (c : Condition) (t : Txn),
      c.operator = .greaterThan →
      ((getPy t c.field.str).pyFloat? = none ∨ c.value.pyFloat? = none) →
      c.evaluate compile t = .ok false) ∧
    (∀ (compile : RegexEngine) (c : Condition) (t : Txn),
      c.operator = .lessThan →
      ((getPy t c.field.str).pyFloat? = none ∨ c.value.pyFloat? = none) →
      c.evaluate compile t = .ok false) ∧
    (∀ (compile : RegexEngine) (c : Condition) (t : Txn) (pat : String),
      c.operator = .regex → c.value = .vstr pat → compile pat = none →
      c.evaluate compile t = .ok false) ∧
    (∀ compile : RegexEngine,
      (Condition.mk .memo .regex (.vint 5)).evaluate compile
        [("memo", Value.vstr "x")] = .error .typeError) := by
  refine ⟨?_, ?_, ?_, ?_, fun compile => rfl⟩
  · intro compile c t hv
    unfold Condition.evaluate
    rw [if_pos hv]
  · intro compile c t hop hpf
    unfold Condition.evaluate
    by_cases hv : getPy t c.field.str = .vnone
    · rw [if_pos hv]
    · rw [if_neg hv, hop]
      rcases hf : (getPy t c.field.str).pyFloat? with _ | a <;>
        rcases hg : c.value.pyFloat? with _ | b
      · rfl
      · rfl
      · rfl
      · rcases hpf with h | h
        · rw [hf] at h
          cases h
        · rw [hg] at h
          cases h
  · intro compile c t hop hpf
    unfold Condition.evaluate
    by_cases hv : getPy t c.field.str = .vnone
    · rw [if_pos hv]
    · rw [if_neg hv, hop]
      rcases hf : (getPy t c.field.str).pyFloat? with _ | a <;>
        rcases hg : c.value.pyFloat? with _ | b
      · rfl
      · rfl
      · rfl
      · rcases hpf with h | h
        · rw [hf] at h
          cases h
        · rw [hg] at h
          cases h
  · intro compile c t pat hop hval hcomp
    unfold Condition.evaluate
    by_cases hv : getPy t c.field.str = .vnone
    · rw [if_pos hv]
    · rw [if_neg hv, hop, hval]
      dsimp only
      rw [hcomp]

/-- Witness for C4: each degradation branch at a concrete input. -/
theorem c4_witness :
    ((Condition.mk .memo .equals (.vstr "x")).evaluate noRegex [] = .ok false) ∧
    ((Condition.mk .outflow .greaterThan (.vstr "5")).evaluate noRegex
      [("outflow", Value.vstr "abc")] = .ok false) ∧
    ((Condition.mk .outflow .lessThan (.vstr "abc")).evaluate noRegex
      [("outflow", Value.vstr "5")] = .ok false) ∧
    ((Condition.mk .memo .regex (.vstr "(")).evaluate noRegex
      [("memo", Value.vstr "x")] = .ok false) ∧
    ((Condition.mk .memo .regex (.vint 5)).evaluate noRegex
      [("memo", Value.vstr "x")] = .error .typeError) :=
  ⟨c4_condition_error_handling.1 noRegex _ _ rfl,
   c4_condition_error_handling.2.1 noRegex _ _ rfl (Or.inl (by decide)),
   c4_condition_error_handling.2.2.1 noRegex _ _ rfl (Or.inr (by decide)),
   c4_condition_error_handling.2.2.2.1 noRegex _ _ "(" rfl rfl rfl,
   c4_condition_error_handling.2.2.2.2 noRegex⟩

/-- **C8** (counterexample): with only `set` actions, a lower-priority rule
can set a field into the trigger range of a higher-priority rule, so a second
pass over the first pass's output changes the record again:
`process_transaction` is not idempotent for enabled set/clear rule sets. -/
theorem c8_counterexample :
    (RulesEngine.process_transaction noRegex
        ⟨[Rule.mk "A" "" [Condition.mk .memo .equals (.vstr "1")]
            [Action.mk .memo .set "2"] true 10 "a" .and,
          Rule.mk "B" "" [Condition.mk .memo .equals (.vstr "0")]
            [Action.mk .memo .set "1"] true 5 "b" .and]⟩
        [("memo", Value.vstr "0")] =
      .ok ([("memo", Value.vstr "1")], ["B"])) ∧
    (RulesEngine.process_transaction noRegex
        ⟨[Rule.mk "A" "" [Condition.mk .memo .equals (.vstr "1")]
            [Action.mk .memo .set "2"] true 10 "a" .and,
          Rule.mk "B" "" [Condition.mk .memo .equals (.vstr "0")]
            [Action.mk .memo .set "1"] true 5 "b" .and]⟩
        [("memo", Value.vstr "1")] =
      .ok ([("memo", Value.vstr "2")], ["A"])) ∧
    dictEq [("memo", Value.vstr "2")] [("memo", Value.vstr "1")] = false :=
  ⟨rfl, rfl, rfl⟩

/-- **C8** (amended): for an enabled-or-not rule set whose actions are all
`set`/`clear` and in which no rule's condition field is any rule's action
field, `process_transaction` is idempotent on the record: a second pass over
the first pass's output returns a structurally equal record. -/
theorem c8_amended_idempotent (compile : RegexEngine) (s : RuleStorage)
    (t t1 : Txn) (l1 : List String)
    (hops : ∀ r ∈ s.rules, ∀ a ∈ r.actions,
      a.operation = .set ∨ a.operation = .clear)
    (hdisj : ∀ r ∈ s.rules, ∀ c ∈ r.conditions, ∀ r' ∈ s.rules,
      ∀ a ∈ r'.actions, c.field.str ≠ a.field.str)
    (h1 : RulesEngine.process_transaction compile s t = .ok (t1, l1)) :
    ∃ t2 l2, RulesEngine.process_transaction compile s t1 = .ok (t2, l2) ∧
      dictEq t2 t1 = true := by
  have hL : ∀ r ∈ RulesEngine.load_rules s,
      (∀ c ∈ r.conditions, c.field.str ∉ actionFields s.rules) ∧
      (∀ a ∈ r.actions, a.operation = .set ∨ a.operation = .clear) := by
    intro r hr
    have hrs : r ∈ s.rules := mem_sortRules.mp hr
    refine ⟨fun c hc hmem => ?_, hops r hrs⟩
    obtain ⟨r', hr', a, ha, heq⟩ := actionFields_mem hmem
    exact hdisj r hrs c hc r' hr' a ha heq
  have hwr : ∀ k, k ∉ actionFields s.rules → getVal? t1 k = getVal? t k :=
    processLoop_writes compile (actionFields s.rules) (RulesEngine.load_rules s)
      (fun r hr a ha => mem_actionFields (mem_sortRules.mp hr) ha) t t1 [] l1 h1
  obtain ⟨t2, l2, hrun, hinv⟩ :=
    processLoop_sim compile (actionFields s.rules) t t1
      (fun k hk => (hwr k hk).symm) (RulesEngine.load_rules s) hL t t1 t1 [] [] l1
      (fun _ => Or.inr ⟨rfl, rfl⟩) h1
  refine ⟨t2, l2, hrun, (dictEq_iff t2 t1).mpr fun k => ?_⟩
  rcases hinv k with heq | ⟨_, hv⟩
  · exact heq.symm
  · exact hv

/-- Witness for C8 (amended) at a one-rule store whose condition field is
disjoint from its action field. -/
theorem c8_amended_witness :
    ∃ t2 l2, RulesEngine.process_transaction noRegex
        ⟨[Rule.mk "R" "" [Condition.mk .payeeName .equals (.vstr "x")]
            [Action.mk .categoryName .set "C"] true 0 "r" .and]⟩
        [("payee_name", Value.vstr "x"), ("category_name", Value.vstr "C")] =
      .ok (t2, l2) ∧
      dictEq t2 [("payee_name", Value.vstr "x"), ("category_name", Value.vstr "C")] = true :=
  c8_amended_idempotent noRegex
    ⟨[Rule.mk "R" "" [Condition.mk .payeeName .equals (.vstr "x")]
        [Action.mk .categoryName .set "C"] true 0 "r" .and]⟩
    [("payee_name", Value.vstr "x")]
    [("payee_name", Value.vstr "x"), ("category_name", Value.vstr "C")] ["R"]
    (by decide) (by decide) rfl

/-- **C2** (counterexample): two cancelling `set` rules leave the final record
equal to the original; the transaction is counted as modified (two applied
rules, both counted in `rules_applied`) yet `modifications` holds no entry
for it. -/
theorem c2_counterexample :
    RulesEngine.process_transactions noRegex
      ⟨[Rule.mk "R1" "" [Condition.mk .memo .equals (.vstr "b")]
          [Action.mk .memo .set "a"] true 2 "1" .and,
        Rule.mk "R2" "" [Condition.mk .memo .equals (.vstr "a")]
          [Action.mk .memo .set "b"] true 1 "2" .and]⟩
      [[("memo", Value.vstr "b")]] false =
      .ok { total_transactions := 1, modified_transactions := 1,
            rules_applied := [("R1", 1), ("R2", 1)], modifications := [],
            dry_run := false } := rfl

/-- Helper: an `ok` result of `specResults` lists exactly the batch's
transactions with their independent `process_transaction` outcomes. -/
theorem specResults_ok_spec (compile : RegexEngine) (s : RuleStorage) :
    ∀ (txns : List Txn) (l : List (Txn × Txn × List String)),
      specResults compile s txns = .ok l →
      l.map (fun x => x.1) = txns ∧
      ∀ x ∈ l, RulesEngine.process_transaction compile s x.1 = .ok (x.2.1, x.2.2) := by
  intro txns
  induction txns with
  | nil =>
    intro l h
    cases h
    exact ⟨rfl, fun x hx => absurd hx (List.not_mem_nil x)⟩
  | cons tx rest ih =>
    intro l h
    rcases hpt : RulesEngine.process_transaction compile s tx with e | ⟨m, ar⟩
    · rw [specResults_cons_error compile s tx rest e hpt] at h
      cases h
    · rw [specResults_cons_ok compile s tx rest m ar hpt] at h
      rcases hsr : specResults compile s rest with e | l'
      · rw [hsr] at h
        cases h
      · rw [hsr] at h
        cases h
        obtain ⟨hmap, hall⟩ := ih l' hsr
        refine ⟨by rw [List.map_cons, hmap], fun x hx => ?_⟩
        rcases List.mem_cons.mp hx with rfl | hx'
        · exact hpt
        · exact hall x hx'

/-- **C2** (amended): a returned report has `total_transactions` the batch
length, `dry_run` the input flag, `modified_transactions` the number of
transactions with at least one applied rule, `rules_applied` mapping each
rule name to its positive application count across the batch (absent iff
zero), and one `modifications` entry per modified transaction *whose final
record differs from the original* (a transaction whose applied rules cancel
out is counted as modified but gets no entry), the entry's changes being the
per-field structural diff over keys of either record. -/
theorem c2_report_spec (compile : RegexEngine) (s : RuleStorage)
    (txns : List Txn) (dry : Bool) (rep : Report)
    (h : RulesEngine.process_transactions compile s txns dry = .ok rep) :
    ∃ l : List (Txn × Txn × List String),
      specResults compile s txns = .ok l ∧
      l.map (fun x => x.1) = txns ∧
      (∀ x ∈ l, RulesEngine.process_transaction compile s x.1 = .ok (x.2.1, x.2.2)) ∧
      rep.total_transactions = txns.length ∧
      rep.dry_run = dry ∧
      rep.modified_transactions = l.countP (fun x => !x.2.2.isEmpty) ∧
      (∀ name : String, rep.rules_applied.lookup name =
        (if ((l.map (fun x => x.2.2)).flatten).count name = 0 then none
         else some (((l.map (fun x => x.2.2)).flatten).count name))) ∧
      rep.modifications = l.filterMap specModEntry ∧
      (∀ x ∈ l, specModEntry x = none ↔
        (x.2.2 = [] ∨ getTransactionChanges x.1 x.2.1 = [])) ∧
      (∀ (original modified : Txn) (c : Change),
        c ∈ getTransactionChanges original modified ↔
          ((∃ ov mv, getVal? original c.field = some ov ∧
              getVal? modified c.field = some mv ∧ ov ≠ mv ∧
              c.old_value = ov ∧ c.new_value = mv) ∨
           (getVal? original c.field = none ∧ ∃ mv,
              getVal? modified c.field = some mv ∧
              c.old_value = .vnone ∧ c.new_value = mv) ∨
           (getVal? modified c.field = none ∧ ∃ ov,
              getVal? original c.field = some ov ∧
              c.old_value = ov ∧ c.new_value = .vnone))) := by
  rw [process_transactions_eq] at h
  rcases hsr : specResults compile s txns with e | l <;> rw [hsr] at h
  · cases h
  · cases h
    obtain ⟨hmap, hall⟩ := specResults_ok_spec compile s txns l hsr
    refine ⟨l, rfl, hmap, hall, rfl, rfl, rfl, ?_, rfl, ?_, ?_⟩
    · intro name
      exact lookup_buildCounts _ name
    · intro x _
      unfold specModEntry
      by_cases har : x.2.2.isEmpty
      · simp [har, List.isEmpty_iff.mp har]
      · have har' : ¬ x.2.2 = [] := fun hh => har (by rw [hh]; rfl)
        rw [if_neg har]
        by_cases hch : (getTransactionChanges x.1 x.2.1).isEmpty
        · simp [List.isEmpty_iff.mp hch, har']
        · have hch' : ¬ getTransactionChanges x.1 x.2.1 = [] :=
            fun hh => hch (by rw [hh]; rfl)
          simp [hch, hch', har']
    · intro original modified c
      exact mem_getTransactionChanges original modified c

/-- Rule store for the C2 witness: the spec's end-to-end example rule. -/
def uberStore : RuleStorage :=
  ⟨[Rule.mk "U" "" [Condition.mk .payeeName .contains (.vstr "uber")]
      [Action.mk .categoryName .set "Transport"] true 0 "u" .and]⟩

/-- Batch for the C2 witness: one matching and one non-matching transaction. -/
def uberBatch : List Txn :=
  [[("payee_name", Value.vstr "Uber Trip")], [("payee_name", Value.vstr "Cafe")]]

/-- Witness for C2 (amended) at a concrete one-rule, two-transaction batch. -/
theorem c2_witness :
    ∃ l : List (Txn × Txn × List String),
      specResults noRegex uberStore uberBatch = .ok l ∧
      l.map (fun x => x.1) = uberBatch ∧
      (∀ x ∈ l, RulesEngine.process_transaction noRegex uberStore x.1 =
        .ok (x.2.1, x.2.2)) ∧
      2 = uberBatch.length ∧
      1 = l.countP (fun x => !x.2.2.isEmpty) := by
  obtain ⟨l, hsr, hmap, hall, htot, _, hmod, _⟩ :=
    c2_report_spec noRegex uberStore uberBatch false
      { total_transactions := 2, modified_transactions := 1,
        rules_applied := [("U", 1)],
        modifications :=
          [⟨Value.vstr "unknown", Value.vstr "Uber Trip", ["U"],
            [⟨"category_name", Value.vnone, Value.vstr "Transport"⟩]⟩],
        dry_run := false } rfl
  exact ⟨l, hsr, hmap, hall, htot, hmod⟩

end YnabRules
